import Mathlib

/-!
Verification development for the Achat WhatsApp shop bot.

This file gives a shallow embedding, in Lean 4, of the request-resolution
core of the repository: the multi-strategy product search
(`src/services/smart-search.service.ts`), the ambiguity-resolution
predicate of the AI order service (`src/services/ai-order.service.ts`,
latest revision), the LLM re-ranking adapter's error handling, and the
order/cart aggregator (`src/services/order.service.ts`).

Modelling conventions:
* JavaScript strings are modelled as Lean `String` at the data-model
  boundary and as `List Char` inside the text-processing pipeline.
* JavaScript `number` is modelled as `ℚ` where fractional values occur
  (search scores, JSON numbers) and as `ℕ` for catalog prices and
  quantities (prices in the catalog are non-negative integers).
* Optional fields (`categoria?`, `marca?`, ...) are `Option`;
  an absent `keywords?` array is modelled as `[]`, which the code
  treats identically (`!product.keywords || product.keywords.length === 0`).
* Fallible JavaScript code (code that can throw) is modelled in
  `Except Unit`; a surrounding `try/catch` that converts every throw to
  `null` becomes a total function returning `Option`.
* I/O side effects (persisting orders to disk, console logging) have no
  observable effect on the values the claims are about and are dropped.
-/

/-! ## Executable rational arithmetic

The batteries arithmetic on `ℚ` (`Rat.add`, `Rat.mul`, `Rat.sub`,
`Rat.inv`) is `@[irreducible]`, so closed search scores built with it
cannot be evaluated by `decide`. The embedding therefore computes with
the following wrappers, each proved equal to the corresponding standard
operation; symbolic proofs rewrite with those equations and reason about
ordinary `ℚ` arithmetic. -/

/-- Executable division on `ℚ` (`a / b`, with `a / 0 = 0`). -/
def qDiv (a b : ℚ) : ℚ := Rat.divInt (a.num * b.den) (a.den * b.num)

/-- Executable multiplication on `ℚ`. -/
def qMul (a b : ℚ) : ℚ := Rat.divInt (a.num * b.num) (a.den * b.den)

/-- Executable addition on `ℚ`. -/
def qAdd (a b : ℚ) : ℚ := Rat.divInt (a.num * b.den + b.num * a.den) (a.den * b.den)

/-- Executable subtraction on `ℚ`. -/
def qSub (a b : ℚ) : ℚ := Rat.divInt (a.num * b.den - b.num * a.den) (a.den * b.den)

/-- Executable minimum on `ℚ` (`Math.min`). -/
def qMin (a b : ℚ) : ℚ := if a ≤ b then a else b

theorem qDiv_eq (a b : ℚ) : qDiv a b = a / b := by
  rw [qDiv, Rat.divInt_eq_div]
  rcases eq_or_ne b 0 with rfl | hb
  · simp
  · have hd : (a.den : ℚ) ≠ 0 := by exact_mod_cast a.den_nz
    have hbn : (b.num : ℚ) ≠ 0 := by exact_mod_cast Rat.num_ne_zero.2 hb
    have hbd : (b.den : ℚ) ≠ 0 := by exact_mod_cast b.den_nz
    push_cast
    conv_rhs => rw [← Rat.num_div_den a, ← Rat.num_div_den b]
    field_simp

theorem qMul_eq (a b : ℚ) : qMul a b = a * b := by
  have hd : (a.den : ℚ) ≠ 0 := by exact_mod_cast a.den_nz
  have hbd : (b.den : ℚ) ≠ 0 := by exact_mod_cast b.den_nz
  rw [qMul, Rat.divInt_eq_div]
  push_cast
  conv_rhs => rw [← Rat.num_div_den a, ← Rat.num_div_den b]
  field_simp

theorem qAdd_eq (a b : ℚ) : qAdd a b = a + b := by
  have hd : (a.den : ℚ) ≠ 0 := by exact_mod_cast a.den_nz
  have hbd : (b.den : ℚ) ≠ 0 := by exact_mod_cast b.den_nz
  rw [qAdd, Rat.divInt_eq_div]
  push_cast
  conv_rhs => rw [← Rat.num_div_den a, ← Rat.num_div_den b]
  field_simp

theorem qSub_eq (a b : ℚ) : qSub a b = a - b := by
  have hd : (a.den : ℚ) ≠ 0 := by exact_mod_cast a.den_nz
  have hbd : (b.den : ℚ) ≠ 0 := by exact_mod_cast b.den_nz
  rw [qSub, Rat.divInt_eq_div]
  push_cast
  conv_rhs => rw [← Rat.num_div_den a, ← Rat.num_div_den b]
  field_simp
  ring

theorem qMin_eq (a b : ℚ) : qMin a b = min a b := (min_def a b).symm

/-! ## Text utilities (smart-search.service.ts `normalizeText` and friends) -/

/-- Whitespace class of the JavaScript regexes `\s` used by the service
(space, tab, line feed, carriage return, vertical tab, form feed). -/
def isJsWs (c : Char) : Bool :=
  c = ' ' || c = '\t' || c = '\n' || c = '\x0d' || c = '\x0b' || c = '\x0c'

/-- Lowercasing as performed by `String.prototype.toLowerCase()`, restricted
to the alphabet the bot actually meets: ASCII plus the Spanish accented
letters. Other characters are left unchanged. -/
def jsToLower (c : Char) : Char :=
  if 'A' ≤ c ∧ c ≤ 'Z' then Char.ofNat (c.toNat + 32)
  else if c = 'Á' then 'á'
  else if c = 'É' then 'é'
  else if c = 'Í' then 'í'
  else if c = 'Ó' then 'ó'
  else if c = 'Ú' then 'ú'
  else if c = 'Ü' then 'ü'
  else if c = 'Ñ' then 'ñ'
  else c

/-- Unicode NFD decomposition (`String.prototype.normalize('NFD')`) for the
lowercase Spanish accented letters; every other character decomposes to
itself. The combining marks U+0301 (acute), U+0308 (diaeresis) and
U+0303 (tilde) fall in the range U+0300–U+036F that the service strips. -/
def nfdChar (c : Char) : List Char :=
  if c = 'á' then ['a', Char.ofNat 0x301]
  else if c = 'é' then ['e', Char.ofNat 0x301]
  else if c = 'í' then ['i', Char.ofNat 0x301]
  else if c = 'ó' then ['o', Char.ofNat 0x301]
  else if c = 'ú' then ['u', Char.ofNat 0x301]
  else if c = 'ü' then ['u', Char.ofNat 0x308]
  else if c = 'ñ' then ['n', Char.ofNat 0x303]
  else [c]

/-- Combining diacritical marks, the class of the regex `[̀-ͯ]`. -/
def isCombiningMark (c : Char) : Bool :=
  0x300 ≤ c.toNat && c.toNat ≤ 0x36F

/-- Character class kept by the regex replacement `[^a-z0-9\s]` → `''`:
lowercase ASCII letters, digits, and whitespace. -/
def isKeptChar (c : Char) : Bool :=
  ('a' ≤ c && c ≤ 'z') || ('0' ≤ c && c ≤ '9') || isJsWs c

/-- Collapse every maximal run of whitespace to a single space, the
replacement `\s+` → `' '`. A whitespace character followed by another
whitespace character is dropped; the last character of a run becomes a
single space. -/
def collapseWs : List Char → List Char
  | [] => []
  | [c] => if isJsWs c then [' '] else [c]
  | c :: d :: rest =>
    if isJsWs c then
      if isJsWs d then collapseWs (d :: rest)
      else ' ' :: collapseWs (d :: rest)
    else c :: collapseWs (d :: rest)

/-- Trim leading and trailing whitespace (`String.prototype.trim()`). -/
def trimWs (l : List Char) : List Char :=
  ((l.dropWhile isJsWs).reverse.dropWhile isJsWs).reverse

/-- Embedding of `SmartSearchService.normalizeText`: lowercase, NFD
decomposition, strip combining marks, keep only `[a-z0-9\s]`, collapse
whitespace runs to single spaces, and trim. -/
def normalizeText (text : List Char) : List Char :=
  trimWs (collapseWs (((text.map jsToLower).flatMap nfdChar).filter
    (fun c => !isCombiningMark c && isKeptChar c)))

/-- Split on whitespace, discarding empty tokens. This models
`String.prototype.split(/\s+/)` on the service's inputs: the service only
splits strings produced by `normalizeText`, which are trimmed with
single interior spaces, and for those the JavaScript split produces no
empty tokens either. -/
def splitWs (l : List Char) : List (List Char) :=
  go [] l
where
  /-- Accumulates the current word (in reverse) while scanning. -/
  go (cur : List Char) : List Char → List (List Char)
  | [] => if cur = [] then [] else [cur.reverse]
  | c :: rest =>
    if isJsWs c then
      if cur = [] then go [] rest else cur.reverse :: go [] rest
    else go (c :: cur) rest

/-- Whether `big` starts with `pat`, character by character. -/
def startsWithChars : List Char → List Char → Bool
  | _, [] => true
  | [], _ :: _ => false
  | a :: as, b :: bs => a = b && startsWithChars as bs

/-- Whether `pat` occurs as a contiguous substring of `big`; the embedding
of `String.prototype.includes`. -/
def containsSub : List Char → List Char → Bool
  | big, pat =>
    if startsWithChars big pat then true
    else
      match big with
      | [] => false
      | _ :: rest => containsSub rest pat

/-! ## Levenshtein distance (smart-search.service.ts `levenshteinDistance`) -/

/-- One row step of the Levenshtein recurrence: given the distance
function `g = levenshteinDistance s` for a word `s`, computes
`levenshteinDistance (a :: s)` by structural recursion, with the source's
cell formula `min(deletion + 1, insertion + 1, diagonal + cost)`. -/
def levCons (a : Char) (g : List Char → ℕ) : List Char → ℕ
  | [] => g [] + 1
  | b :: t =>
    let cost : ℕ := if a = b then 0 else 1
    Nat.min (g (b :: t) + 1)
      (Nat.min (levCons a g t + 1) (g t + cost))

/-- Embedding of `SmartSearchService.levenshteinDistance`. The source
fills the standard dynamic-programming matrix
`matrix[i][j] = min(matrix[i-1][j] + 1, matrix[i][j-1] + 1,
matrix[i-1][j-1] + cost)` with border `matrix[i][0] = i`,
`matrix[0][j] = j`; this definition computes the same recurrence by
structural recursion (`levCons` is the step from row function `i-1` to
row function `i`). -/
def levenshteinDistance : List Char → List Char → ℕ
  | [], t => t.length
  | a :: s, t => levCons a (levenshteinDistance s) t

/-- Embedding of `SmartSearchService.levenshteinSimilarity`:
`1 - distance / max(len1, len2)`. -/
def levenshteinSimilarity (str1 str2 : List Char) : ℚ :=
  qSub 1 (qDiv (levenshteinDistance str1 str2 : ℚ) (Nat.max str1.length str2.length : ℚ))

/-! ## Data model (src/types/index.ts) -/

/-- Embedding of the `Product` interface. `keywords?: string[]` is
modelled as a plain list, with `[]` for an absent field (the search code
treats the two identically); prices (`ventas`) are non-negative integers. -/
structure Product where
  descripcion : String
  ventas : ℕ
  categoria : Option String := none
  marca : Option String := none
  unidad : Option String := none
  codigoBarras : Option String := none
  keywords : List String := []
deriving DecidableEq, Repr

/-- Match-type tag of a `SearchResult` (`'exact' | 'fuzzy' | 'partial' |
'keyword' | 'category'`); the `'partial'` tag is spelled `partialWord`. -/
inductive MatchType where
  | exact
  | fuzzy
  | partialWord
  | keyword
  | category
deriving DecidableEq, Repr

/-- Embedding of the `SearchResult` interface of smart-search.service.ts. -/
structure SearchResult where
  product : Product
  score : ℚ
  matchType : MatchType
deriving DecidableEq, Repr

/-- Options record of `SmartSearchService.search`; `none` models an absent
field of the optional `options` argument. -/
structure SearchOptions where
  maxResults : Option ℕ := none
  minScore : Option ℚ := none
  includeCategories : Bool := false
deriving DecidableEq, Repr

/-! ## Search strategies (smart-search.service.ts) -/

/-- Embedding of `SmartSearchService.exactSearch`: a product whose
normalized description equals the (already normalized) query scores 1.0. -/
def exactSearch (query : List Char) (products : List Product) : List SearchResult :=
  products.filterMap fun product =>
    if normalizeText product.descripcion.data = query then
      some { product := product, score := 1, matchType := .exact }
    else none

/-- Per-query-word accumulation loop of `SmartSearchService.partialSearch`:
returns `(matchedWords, totalRelevance)`. An exact word match contributes
`(1, 1.0)`, a substring match of a query word longer than 3 characters
contributes `(1, 0.8)`, and an unmatched word contributes nothing. -/
def wordMatches (productWords : List (List Char)) : List (List Char) → ℕ × ℚ
  | [] => (0, 0)
  | qWord :: rest =>
    let acc := wordMatches productWords rest
    if productWords.any (fun pWord => pWord = qWord) then
      (acc.1 + 1, qAdd acc.2 1)
    else if productWords.any (fun pWord => containsSub pWord qWord && decide (3 < qWord.length)) then
      (acc.1 + 1, qAdd acc.2 (Rat.divInt 8 10))
    else acc

/-- Query words used by the partial strategy: words of length `> 2`. -/
def partialQueryWords (query : List Char) : List (List Char) :=
  (splitWs query).filter (fun w => 2 < w.length)

/-- Embedding of `SmartSearchService.partialSearch`: a product qualifies
only when every query word of length `> 2` is matched, and then scores
`min(0.85 + totalRelevance / queryWords.length * 0.15, 0.95)`. -/
def partialSearch (query : List Char) (products : List Product) : List SearchResult :=
  let queryWords := partialQueryWords query
  if queryWords.length = 0 then []
  else
    products.filterMap fun product =>
      let productWords := splitWs (normalizeText product.descripcion.data)
      let acc := wordMatches productWords queryWords
      if acc.1 = queryWords.length then
        some { product := product
               score := qMin (qAdd (Rat.divInt 85 100)
                   (qMul (qDiv acc.2 (queryWords.length : ℚ)) (Rat.divInt 15 100)))
                 (Rat.divInt 95 100)
               matchType := .partialWord }
      else none

/-- Embedding of `SmartSearchService.keywordSearch`: keywords matching the
query as a substring in either direction; score
`min(0.7 + count * 0.05, 0.85)`. -/
def keywordSearch (query : List Char) (products : List Product) : List SearchResult :=
  products.filterMap fun product =>
    if product.keywords.length = 0 then none
    else
      let normalizedKeywords := product.keywords.map (fun k => normalizeText k.data)
      let matchingKeywords := normalizedKeywords.filter
        (fun k => containsSub k query || containsSub query k)
      if 0 < matchingKeywords.length then
        some { product := product
               score := qMin (qAdd (Rat.divInt 7 10)
                   (qMul (matchingKeywords.length : ℚ) (Rat.divInt 5 100)))
                 (Rat.divInt 85 100)
               matchType := .keyword }
      else none

/-- Inner loop of `SmartSearchService.fuzzySearch` for one query word: the
best Levenshtein similarity against the product words of length `≥ 3`. -/
def bestSimilarity (qWord : List Char) (productWords : List (List Char)) : ℚ :=
  productWords.foldl
    (fun best pWord =>
      if pWord.length < 3 then best
      else
        let similarity := levenshteinSimilarity qWord pWord
        if best < similarity then similarity else best)
    0

/-- Accumulation loop of `SmartSearchService.fuzzySearch`: counts the query
words whose best similarity exceeds 0.7 and sums those similarities,
returning `(matchedWords, totalSimilarity)`. -/
def fuzzyAcc (productWords : List (List Char)) : List (List Char) → ℕ × ℚ
  | [] => (0, 0)
  | qWord :: rest =>
    let acc := fuzzyAcc productWords rest
    let best := bestSimilarity qWord productWords
    if Rat.divInt 7 10 < best then (acc.1 + 1, qAdd acc.2 best) else acc

/-- Query words used by the fuzzy strategy: words of length `> 3`. -/
def fuzzyQueryWords (query : List Char) : List (List Char) :=
  (splitWs query).filter (fun w => 3 < w.length)

/-- Embedding of `SmartSearchService.fuzzySearch`: requires at least one
matched word and `matchedWords ≥ queryWords.length * 0.6`; scores
`totalSimilarity / queryWords.length * 0.7`. -/
def fuzzySearch (query : List Char) (products : List Product) : List SearchResult :=
  let queryWords := fuzzyQueryWords query
  if queryWords.length = 0 then []
  else
    products.filterMap fun product =>
      let productWords := splitWs (normalizeText product.descripcion.data)
      let acc := fuzzyAcc productWords queryWords
      if 0 < acc.1 ∧ qMul (queryWords.length : ℚ) (Rat.divInt 6 10) ≤ (acc.1 : ℚ) then
        some { product := product
               score := qMul (qDiv acc.2 (queryWords.length : ℚ)) (Rat.divInt 7 10)
               matchType := .fuzzy }
      else none

/-- Embedding of `SmartSearchService.categorySearch`: substring match in
either direction against the product category (skipping products whose
category is absent or empty, both falsy in the source); flat score 0.5. -/
def categorySearch (query : List Char) (products : List Product) : List SearchResult :=
  products.filterMap fun product =>
    match product.categoria with
    | none => none
    | some categoria =>
      if categoria = "" then none
      else
        let normalizedCategory := normalizeText categoria.data
        if containsSub normalizedCategory query || containsSub query normalizedCategory then
          some { product := product, score := Rat.divInt 1 2, matchType := .category }
        else none

/-! ## Deduplication and the top-level search (smart-search.service.ts) -/

/-- Update-or-append on the association structure of a JavaScript `Map`
keyed by product description: the embedding of `map.set(key, result)`,
which overwrites in place when the key exists and appends otherwise. -/
def setResult (acc : List SearchResult) (r : SearchResult) : List SearchResult :=
  match acc with
  | [] => [r]
  | e :: rest =>
    if e.product.descripcion = r.product.descripcion then r :: rest
    else e :: setResult rest r

/-- Loop body of `SmartSearchService.removeDuplicates`: store the result
when its key is new or its score strictly exceeds the stored score. -/
def insertResult (acc : List SearchResult) (r : SearchResult) : List SearchResult :=
  match acc.find? (fun e => e.product.descripcion = r.product.descripcion) with
  | none => setResult acc r
  | some existing => if existing.score < r.score then setResult acc r else acc

/-- Embedding of `SmartSearchService.removeDuplicates`: fold the results
through a description-keyed map, keeping the best score per description;
`Array.from(map.values())` preserves first-insertion order. -/
def removeDuplicates (results : List SearchResult) : List SearchResult :=
  results.foldl insertResult []

/-- Concatenation of the strategy outputs in the order the source pushes
them (`exact`, `partial`, `keyword`, `fuzzy`, then `category` when
`includeCategories` is set). -/
def combinedResults (searchTerm : List Char) (products : List Product)
    (includeCategories : Bool) : List SearchResult :=
  exactSearch searchTerm products ++ partialSearch searchTerm products ++
    keywordSearch searchTerm products ++ fuzzySearch searchTerm products ++
    (if includeCategories then categorySearch searchTerm products else [])

/-- Descending-by-score comparison used by
`.sort((a, b) => b.score - a.score)`. -/
def scoreDesc (a b : SearchResult) : Prop := b.score ≤ a.score

instance : DecidableRel scoreDesc := fun a b => inferInstanceAs (Decidable (b.score ≤ a.score))

instance : IsTotal SearchResult scoreDesc := ⟨fun a b => le_total b.score a.score⟩

instance : IsTrans SearchResult scoreDesc :=
  ⟨fun _ _ _ hab hbc => le_trans hbc hab⟩

/-- Effective `maxResults` bound: `options?.maxResults || 15` (a missing
or zero value falls back to 15, `0` being falsy in JavaScript). -/
def effMaxResults (options : SearchOptions) : ℕ :=
  match options.maxResults with
  | some n => if n = 0 then 15 else n
  | none => 15

/-- Effective `minScore` bound: `options?.minScore || 0.3` (a missing or
zero value falls back, `0` being falsy in JavaScript). -/
def effMinScore (options : SearchOptions) : ℚ :=
  match options.minScore with
  | some q => if q = 0 then Rat.divInt 3 10 else q
  | none => Rat.divInt 3 10

/-- Embedding of `SmartSearchService.search`: normalize the query, run the
strategies, deduplicate, filter by the effective minimum score, sort
descending by score (a stable sort, as JavaScript's `Array.prototype.sort`),
and truncate to the effective maximum number of results. -/
def search (query : String) (products : List Product) (options : SearchOptions) :
    List SearchResult :=
  let searchTerm := normalizeText query.data
  let results := combinedResults searchTerm products options.includeCategories
  let uniqueResults := removeDuplicates results
  (List.insertionSort scoreDesc
      (uniqueResults.filter (fun r => effMinScore options ≤ r.score))).take
    (effMaxResults options)

/-! ## Ambiguity resolver (ai-order.service.ts, latest revision) -/

/-- Embedding of `AIOrderService.needsUserChoice` in its latest revision
(the policy asking only in extreme cases): fewer than 5 candidates never
ask; otherwise sort the prices ascending, take the extremes, and ask
exactly when `(maxPrice - minPrice) / minPrice > 1.0`. With
`minPrice = 0` the JavaScript division produces `Infinity` when
`maxPrice > 0` (so `> 1` holds) and `NaN` when `maxPrice = 0` (so `> 1`
fails); that case is modelled explicitly. -/
def needsUserChoice (products : List Product) : Bool :=
  if products.length < 5 then false
  else
    let prices := List.insertionSort (· ≤ ·) (products.map Product.ventas)
    let minPrice := prices.headI
    let maxPrice := prices.getLastI
    if minPrice = 0 then decide (0 < maxPrice)
    else decide ((1 : ℚ) < qDiv (qSub (maxPrice : ℚ) (minPrice : ℚ)) (minPrice : ℚ))

/-! ## Order/cart aggregator (order.service.ts) -/

/-- Embedding of the `OrderItem` interface. -/
structure OrderItem where
  product : Product
  quantity : ℕ
deriving DecidableEq, Repr

/-- Status tag of an order (`'pending' | 'confirmed' | 'cancelled'`). -/
inductive OrderStatus where
  | pending
  | confirmed
  | cancelled
deriving DecidableEq, Repr

/-- Embedding of the `Order` interface. -/
structure Order where
  items : List OrderItem
  total : ℕ
  customerPhone : String
  status : OrderStatus
deriving DecidableEq, Repr

/-- The `OrderService.orders` map (`Map<string, Order>`), modelled as an
insertion-ordered association list keyed by customer phone. -/
abbrev OrdersMap := List (String × Order)

/-- Embedding of `Map.prototype.set` for the orders map: overwrite in
place when the key exists, append otherwise. -/
def mapSetOrder (orders : OrdersMap) (customerPhone : String) (order : Order) : OrdersMap :=
  match orders with
  | [] => [(customerPhone, order)]
  | e :: rest =>
    if e.1 = customerPhone then (customerPhone, order) :: rest
    else e :: mapSetOrder rest customerPhone order

/-- Embedding of `OrderService.getOrder`. -/
def getOrder (orders : OrdersMap) (customerPhone : String) : Option Order :=
  (orders.find? (fun e => e.1 = customerPhone)).map (·.2)

/-- Embedding of `OrderService.updateTotal`: recompute the total as
`items.reduce((sum, item) => sum + item.product.ventas * item.quantity, 0)`. -/
def updateTotal (order : Order) : Order :=
  { order with
    total := order.items.foldl (fun sum item => sum + item.product.ventas * item.quantity) 0 }

/-- Embedding of `OrderService.createOrder`: a fresh pending order with no
items and total 0, stored under the customer phone. -/
def createOrder (orders : OrdersMap) (customerPhone : String) : Order × OrdersMap :=
  let order : Order :=
    { items := [], total := 0, customerPhone := customerPhone, status := .pending }
  (order, mapSetOrder orders customerPhone order)

/-- Item-merge step of `OrderService.addItem`: the first existing line
item with the same product description has its quantity increased;
otherwise the new item is pushed at the end. -/
def addToItems (items : List OrderItem) (item : OrderItem) : List OrderItem :=
  match items with
  | [] => [item]
  | i :: rest =>
    if i.product.descripcion = item.product.descripcion then
      { i with quantity := i.quantity + item.quantity } :: rest
    else i :: addToItems rest item

/-- Embedding of `OrderService.addItem`: fetch or create the customer's
order, merge the item, recompute the total, and store the result (the
source mutates the very object held by the map, so the stored order is
the returned one). -/
def addItem (orders : OrdersMap) (customerPhone : String) (item : OrderItem) :
    Order × OrdersMap :=
  let order :=
    match getOrder orders customerPhone with
    | some o => o
    | none => (createOrder orders customerPhone).1
  let updated := updateTotal { order with items := addToItems order.items item }
  (updated, mapSetOrder orders customerPhone updated)

/-- Embedding of `OrderService.removeItem`: drop every line item whose
product description equals `productName`, recompute the total. -/
def removeItem (orders : OrdersMap) (customerPhone productName : String) :
    Option Order × OrdersMap :=
  match getOrder orders customerPhone with
  | none => (none, orders)
  | some order =>
    let updated := updateTotal
      { order with items := order.items.filter (fun i => i.product.descripcion != productName) }
    (some updated, mapSetOrder orders customerPhone updated)

/-- Embedding of `OrderService.validateQuantity`'s parsing step,
`parseInt(quantity, 10)`: skip leading whitespace, read an optional sign
and then a maximal run of decimal digits, ignore the rest of the string;
no digits means `NaN`, modelled as `none`. -/
def jsParseInt (s : String) : Option ℤ :=
  let chars := s.data.dropWhile isJsWs
  let signAndRest : ℤ × List Char :=
    match chars with
    | '-' :: r => (-1, r)
    | '+' :: r => (1, r)
    | r => (1, r)
  let digits := signAndRest.2.takeWhile (fun c => decide ('0' ≤ c) && decide (c ≤ '9'))
  if digits.length = 0 then none
  else some (signAndRest.1 * (digits.foldl (fun n c => n * 10 + (c.toNat - '0'.toNat)) 0 : ℕ))

/-- Embedding of `OrderService.validateQuantity`: `parseInt` base 10,
rejecting `NaN` and anything outside `1 ≤ n ≤ 100`. -/
def validateQuantity (quantity : String) : Option ℤ :=
  match jsParseInt quantity with
  | none => none
  | some num => if num < 1 ∨ 100 < num then none else some num

/-! ## LLM re-ranking adapter (ai-order.service.ts `getAIRecommendation`)

The network transport and the platform JSON parser are not code of this
repository; they are modelled as inputs: a `FetchResult` describing how
the `fetch` call resolved, and a parse oracle `jparse` standing for
`JSON.parse` (returning `.error` when the parser would throw). Everything
after the response arrives — fence stripping, brace extraction, the
`selectedId` validity check, and the surrounding `try/catch` that maps
every thrown error to `null` — is embedded from the source. -/

/-- JSON values, the possible results of `JSON.parse`. -/
inductive JsonVal where
  | jnull
  | jbool (b : Bool)
  | jnum (q : ℚ)
  | jstr (s : String)
  | jarr (elems : List JsonVal)
  | jobj (fields : List (String × JsonVal))

/-- Outcome of the `fetch` call: the promise rejected (network failure or
the 8-second abort timer fired), or a response arrived with HTTP-ok flag
`ok` and `body` the outcome of `response.json()`. -/
inductive FetchResult where
  | aborted
  | response (ok : Bool) (body : Except Unit JsonVal)

/-- JavaScript property access `v.field`: throws on `null`, yields
`undefined` (`none`) on non-objects and missing fields. -/
def jsGetField (v : JsonVal) (field : String) : Except Unit (Option JsonVal) :=
  match v with
  | .jnull => .error ()
  | .jobj fields => .ok ((fields.find? (fun f => f.1 = field)).map (·.2))
  | _ => .ok none

/-- JavaScript index access `v[i]`: throws on `undefined` and `null`,
yields the element (or `undefined`) on arrays, `undefined` otherwise. -/
def jsIndex (v : Option JsonVal) (i : ℕ) : Except Unit (Option JsonVal) :=
  match v with
  | none => .error ()
  | some .jnull => .error ()
  | some (.jarr elems) => .ok elems[i]?
  | some _ => .ok none

/-- Embedding of the reply-text extraction
`data.candidates[0]?.content?.parts[0]?.text || ''` with JavaScript
optional-chaining semantics: a nullish link short-circuits the rest of
the chain to `undefined`, which `|| ''` turns into the empty string; a
truthy non-string `text` makes the subsequent `.replace` call throw. -/
def extractText (data : JsonVal) : Except Unit String := do
  let cands ← jsGetField data "candidates"
  let c0 ← jsIndex cands 0
  match c0 with
  | none | some .jnull => pure ""
  | some v0 =>
    let content ← jsGetField v0 "content"
    match content with
    | none | some .jnull => pure ""
    | some v1 =>
      let parts ← jsGetField v1 "parts"
      let p0 ← jsIndex parts 0
      match p0 with
      | none | some .jnull => pure ""
      | some v2 =>
        let text ← jsGetField v2 "text"
        match text with
        | none | some .jnull => pure ""
        | some (.jstr s) => pure s
        | some (.jbool false) => pure ""
        | some (.jnum q) => if q = 0 then pure "" else .error ()
        | some _ => .error ()

/-- The backtick character. -/
def fenceChar : Char := Char.ofNat 96

/-- The fence pattern with language tag, the left alternative of the
replacement regex. -/
def fenceJson : List Char := [fenceChar, fenceChar, fenceChar, 'j', 's', 'o', 'n']

/-- The bare fence pattern, the right alternative. -/
def fence3 : List Char := [fenceChar, fenceChar, fenceChar]

/-- Fuelled scanner for the global replacement of the fence patterns by
the empty string; the regex alternation tries the longer pattern first at
each position, as JavaScript does. Fuel `s.length` always suffices. -/
def stripFencesGo : ℕ → List Char → List Char
  | 0, s => s
  | _ + 1, [] => []
  | fuel + 1, c :: rest =>
    if startsWithChars (c :: rest) fenceJson then stripFencesGo fuel (rest.drop 6)
    else if startsWithChars (c :: rest) fence3 then stripFencesGo fuel (rest.drop 2)
    else c :: stripFencesGo fuel rest

/-- Embedding of the fence-stripping replacement applied to the reply text. -/
def stripFences (s : List Char) : List Char := stripFencesGo s.length s

/-- The opening curly bracket character. -/
def braceOpen : Char := Char.ofNat 123

/-- The closing curly bracket character. -/
def braceClose : Char := Char.ofNat 125

/-- Embedding of `cleaned.match(/\x7b[\s\S]*\x7d/)`: the greedy match runs
from the first opening brace to the last closing brace, provided such a
pair exists in that order; otherwise the match is `null`. -/
def extractBraces (s : List Char) : Option (List Char) :=
  let fromFirst := s.dropWhile (fun c => !(c = braceOpen))
  match fromFirst with
  | [] => none
  | l =>
    let upToLast := (l.reverse.dropWhile (fun c => !(c = braceClose))).reverse
    if upToLast.length ≤ 1 then none else some upToLast

/-- The body of `AIOrderService.getAIRecommendation` before the
surrounding `try/catch`, in the exception monad: any `.error` models a
thrown (and later caught) exception. -/
def getAIRecommendationRun (jparse : String → Except Unit JsonVal)
    (candidates : List Product) (fetch : FetchResult) : Except Unit (Option Product) :=
  match fetch with
  | .aborted => .error ()
  | .response ok body =>
    if !ok then .error ()
    else
      match body with
      | .error e => .error e
      | .ok data =>
        match extractText data with
        | .error e => .error e
        | .ok text =>
          match extractBraces (trimWs (stripFences text.data)) with
          | none => .error ()
          | some jsonStr =>
            match jparse (String.mk jsonStr) with
            | .error e => .error e
            | .ok result =>
              match jsGetField result "selectedId" with
              | .error e => .error e
              | .ok (some (.jnum q)) =>
                if 0 ≤ q ∧ q < (candidates.length : ℚ) then
                  .ok (if q.den = 1 then candidates[q.num.toNat]? else none)
                else .ok none
              | .ok _ => .ok none

/-- Embedding of `AIOrderService.getAIRecommendation`: the whole body is
wrapped in `try/catch` with `return null` in the catch clause, so every
modelled exception becomes `none`. (`undefined`, returned by
`candidates[selectedId]` for a fractional in-range `selectedId`, is
collapsed to `none` as well: the caller treats `null` and `undefined`
identically.) -/
def getAIRecommendation (jparse : String → Except Unit JsonVal)
    (candidates : List Product) (fetch : FetchResult) : Option Product :=
  match getAIRecommendationRun jparse candidates fetch with
  | .error _ => none
  | .ok v => v

/-! ## Helper lemmas -/

theorem headI_mem {α : Type} [Inhabited α] {s : List α} (h : s ≠ []) : s.headI ∈ s := by
  cases s with
  | nil => exact absurd rfl h
  | cons a t => simp

theorem sorted_headI_le {s : List ℕ} (hs : List.Sorted (· ≤ ·) s) :
    ∀ x ∈ s, s.headI ≤ x := by
  cases s with
  | nil => intro x hx; simp at hx
  | cons a t =>
    intro x hx
    rcases List.mem_cons.1 hx with rfl | hx'
    · simp
    · simpa using List.rel_of_sorted_cons hs x hx'

theorem getLastI_mem {s : List ℕ} (h : s ≠ []) : s.getLastI ∈ s := by
  induction s with
  | nil => exact absurd rfl h
  | cons a t ih =>
    cases t with
    | nil => simp [List.getLastI]
    | cons b u =>
      rw [List.getLastI_eq_getLast?, List.getLast?_cons_cons, ← List.getLastI_eq_getLast?]
      exact List.mem_cons_of_mem a (ih (by simp))

theorem sorted_le_getLastI {s : List ℕ} (hs : List.Sorted (· ≤ ·) s) :
    ∀ x ∈ s, x ≤ s.getLastI := by
  induction s with
  | nil => simp
  | cons a t ih =>
    intro x hx
    cases t with
    | nil =>
      rcases List.mem_cons.1 hx with rfl | hx'
      · simp [List.getLastI]
      · simp at hx'
    | cons b u =>
      rw [List.getLastI_eq_getLast?, List.getLast?_cons_cons, ← List.getLastI_eq_getLast?]
      rcases List.mem_cons.1 hx with rfl | hx'
      · exact List.rel_of_sorted_cons hs _ (getLastI_mem (by simp))
      · exact ih hs.of_cons x hx'

/-! ## C6: the needs-user-choice predicate -/

/-- C6: for every candidate product list, `needsUserChoice` returns true
if and only if the candidate count is at least 5 and the maximum
candidate price exceeds twice the minimum candidate price; otherwise the
flow auto-selects the candidate heuristically. (Proved for every list,
non-empty or not; on fewer than 5 candidates both sides are false.) -/
theorem claim6_needsUserChoice (products : List Product) :
    needsUserChoice products = true ↔
      5 ≤ products.length ∧
        2 * ((products.map Product.ventas).min?.getD 0) <
          (products.map Product.ventas).max?.getD 0 := by
  unfold needsUserChoice
  by_cases hlen : products.length < 5
  · simp only [if_pos hlen]
    constructor
    · intro h; exact absurd h (by simp)
    · rintro ⟨h5, -⟩; omega
  · rw [if_neg hlen]
    have h5 : 5 ≤ products.length := Nat.le_of_not_lt hlen
    set l := products.map Product.ventas with hl
    have hlne : l ≠ [] := by
      intro h
      have := congrArg List.length h
      simp only [hl, List.length_map, List.length_nil] at this
      omega
    set s := List.insertionSort (· ≤ ·) l with hs
    have hperm : s.Perm l := List.perm_insertionSort _ _
    have hsorted : List.Sorted (· ≤ ·) s := List.sorted_insertionSort _ _
    have hsne : s ≠ [] := by
      intro h
      exact hlne (List.length_eq_zero.1 (by rw [← hperm.length_eq, h, List.length_nil]))
    have hmin : l.min? = some s.headI :=
      List.min?_eq_some_iff'.2
        ⟨hperm.mem_iff.1 (headI_mem hsne),
         fun b hb => sorted_headI_le hsorted b (hperm.mem_iff.2 hb)⟩
    have hmax : l.max? = some s.getLastI :=
      List.max?_eq_some_iff'.2
        ⟨hperm.mem_iff.1 (getLastI_mem hsne),
         fun b hb => sorted_le_getLastI hsorted b (hperm.mem_iff.2 hb)⟩
    rw [hmin, hmax]
    simp only [Option.getD_some]
    by_cases hm0 : s.headI = 0
    · rw [if_pos hm0, hm0]
      simp [h5]
    · rw [if_neg hm0, qDiv_eq, qSub_eq]
      have hmpos : (0 : ℚ) < (s.headI : ℕ) := by
        exact_mod_cast Nat.pos_of_ne_zero hm0
      rw [decide_eq_true_eq, lt_div_iff hmpos, one_mul, lt_sub_iff_add_lt]
      rw [and_iff_right h5]
      constructor
      · intro h
        have : ((s.headI : ℚ) + s.headI) < (s.getLastI : ℚ) := h
        have h2 : ((2 * s.headI : ℕ) : ℚ) < ((s.getLastI : ℕ) : ℚ) := by push_cast; linarith
        exact_mod_cast h2
      · intro h
        have h2 : ((2 * s.headI : ℕ) : ℚ) < ((s.getLastI : ℕ) : ℚ) := by exact_mod_cast h
        push_cast at h2
        linarith

/-! ## C10: quantity validation -/

/-- C10: for every input string, `validateQuantity` returns `n` exactly
when base-10 integer parsing yields `n` with `1 ≤ n ≤ 100`, and returns
null otherwise; in particular every parsed quantity above 100 is
rejected. -/
theorem claim10_validateQuantity :
    (∀ (s : String) (n : ℤ), validateQuantity s = some n ↔
      jsParseInt s = some n ∧ 1 ≤ n ∧ n ≤ 100) ∧
    (∀ (s : String) (n : ℤ), jsParseInt s = some n → 100 < n →
      validateQuantity s = none) := by
  constructor
  · intro s n
    cases hp : jsParseInt s with
    | none => simp [validateQuantity, hp]
    | some m =>
      simp only [validateQuantity, hp]
      by_cases hc : m < 1 ∨ 100 < m
      · rw [if_pos hc]
        simp only [Option.some.injEq]
        constructor
        · intro h; exact Option.noConfusion h
        · rintro ⟨rfl, h1, h2⟩; exact absurd hc (by omega)
      · rw [if_neg hc]
        push_neg at hc
        simp only [Option.some.injEq]
        constructor
        · rintro rfl; exact ⟨rfl, hc.1, hc.2⟩
        · rintro ⟨rfl, -, -⟩; rfl
  · intro s n hp h100
    simp only [validateQuantity, hp]
    rw [if_pos (Or.inr h100)]

/-- Witness for C10 at concrete inputs: `"101"` parses to 101 and is
rejected; `"100"` parses to 100 and is accepted. -/
theorem claim10_witness :
    validateQuantity "101" = none ∧ validateQuantity "100" = some 100 :=
  ⟨claim10_validateQuantity.2 "101" 101 (by decide) (by decide),
   (claim10_validateQuantity.1 "100" 100).2 ⟨by decide, by decide, by decide⟩⟩

/-! ## C7: cart aggregation and the total invariant -/

theorem foldl_total_eq (l : List OrderItem) :
    ∀ init : ℕ,
      l.foldl (fun sum item => sum + item.product.ventas * item.quantity) init =
        init + (l.map (fun item => item.product.ventas * item.quantity)).sum := by
  induction l with
  | nil => intro init; simp
  | cons i rest ih =>
    intro init
    simp only [List.foldl_cons, List.map_cons, List.sum_cons]
    rw [ih]
    omega

theorem updateTotal_invariant (o : Order) :
    (updateTotal o).total =
      ((updateTotal o).items.map (fun item => item.product.ventas * item.quantity)).sum := by
  show o.items.foldl (fun sum item => sum + item.product.ventas * item.quantity) 0 =
      (o.items.map (fun item => item.product.ventas * item.quantity)).sum
  rw [foldl_total_eq, Nat.zero_add]

theorem getOrder_mapSetOrder (orders : OrdersMap) (phone : String) (o : Order) :
    getOrder (mapSetOrder orders phone o) phone = some o := by
  induction orders with
  | nil => simp [mapSetOrder, getOrder]
  | cons e rest ih =>
    by_cases h : e.1 = phone
    · simp [mapSetOrder, h, getOrder]
    · simp only [mapSetOrder, if_neg h, getOrder] at ih ⊢
      rw [List.find?_cons_of_neg]
      · exact ih
      · simp [h]

theorem addItem_fst_of_some {orders : OrdersMap} {phone : String} {o : Order}
    (item : OrderItem) (h : getOrder orders phone = some o) :
    (addItem orders phone item).1 = updateTotal { o with items := addToItems o.items item } := by
  simp [addItem, h]

theorem addItem_snd_of_some {orders : OrdersMap} {phone : String} {o : Order}
    (item : OrderItem) (h : getOrder orders phone = some o) :
    (addItem orders phone item).2 =
      mapSetOrder orders phone (updateTotal { o with items := addToItems o.items item }) := by
  simp [addItem, h]

theorem addItem_fst_of_none {orders : OrdersMap} {phone : String}
    (item : OrderItem) (h : getOrder orders phone = none) :
    (addItem orders phone item).1 =
      updateTotal { items := [item], total := 0, customerPhone := phone,
                    status := .pending } := by
  simp [addItem, h, createOrder, addToItems]

theorem addItem_snd_of_none {orders : OrdersMap} {phone : String}
    (item : OrderItem) (h : getOrder orders phone = none) :
    (addItem orders phone item).2 =
      mapSetOrder orders phone
        (updateTotal { items := [item], total := 0, customerPhone := phone,
                       status := .pending }) := by
  simp [addItem, h, createOrder, addToItems]

/-- C7: adding the same product description twice with quantities 2 and 3
(starting from a customer with no order) leaves exactly one line item,
with quantity 5, and total `price × 5` (the price of the first-added
product, whose line item is the one kept); and after every order mutation
(`createOrder`, `addItem`, `removeItem`) the stored total equals the sum
over line items of price times quantity. -/
theorem claim7_cart_totals :
    (∀ (orders : OrdersMap) (phone : String),
      ((createOrder orders phone).1).total =
        (((createOrder orders phone).1).items.map
          (fun item => item.product.ventas * item.quantity)).sum) ∧
    (∀ (orders : OrdersMap) (phone : String) (item : OrderItem),
      ((addItem orders phone item).1).total =
        (((addItem orders phone item).1).items.map
          (fun item => item.product.ventas * item.quantity)).sum) ∧
    (∀ (orders : OrdersMap) (phone productName : String) (o : Order),
      (removeItem orders phone productName).1 = some o →
      o.total = (o.items.map (fun item => item.product.ventas * item.quantity)).sum) ∧
    (∀ (orders : OrdersMap) (phone : String) (p1 p2 : Product),
      getOrder orders phone = none → p1.descripcion = p2.descripcion →
      ((addItem (addItem orders phone ⟨p1, 2⟩).2 phone ⟨p2, 3⟩).1).items = [⟨p1, 5⟩] ∧
      ((addItem (addItem orders phone ⟨p1, 2⟩).2 phone ⟨p2, 3⟩).1).total = p1.ventas * 5) := by
  refine ⟨?_, ?_, ?_, ?_⟩
  · intro orders phone
    simp [createOrder]
  · intro orders phone item
    exact updateTotal_invariant _
  · intro orders phone productName o h
    unfold removeItem at h
    cases hg : getOrder orders phone with
    | none => rw [hg] at h; exact Option.noConfusion h
    | some order =>
      rw [hg] at h
      obtain rfl := Option.some.inj h
      exact updateTotal_invariant _
  · intro orders phone p1 p2 hno hdesc
    rw [addItem_snd_of_none _ hno]
    have hg : getOrder
        (mapSetOrder orders phone
          (updateTotal { items := [⟨p1, 2⟩], total := 0, customerPhone := phone,
                         status := .pending })) phone =
        some (updateTotal { items := [⟨p1, 2⟩], total := 0, customerPhone := phone,
                            status := .pending }) :=
      getOrder_mapSetOrder _ _ _
    rw [addItem_fst_of_some _ hg]
    have hmerge : addToItems
        (updateTotal { items := [⟨p1, 2⟩], total := 0, customerPhone := phone,
                       status := (.pending : OrderStatus) }).items ⟨p2, 3⟩ =
        [⟨p1, 5⟩] := by
      show addToItems [⟨p1, 2⟩] ⟨p2, 3⟩ = [⟨p1, 5⟩]
      simp [addToItems, hdesc]
    constructor
    · show addToItems _ ⟨p2, 3⟩ = [⟨p1, 5⟩]
      exact hmerge
    · show List.foldl _ 0 (addToItems _ ⟨p2, 3⟩) = p1.ventas * 5
      rw [hmerge, foldl_total_eq]
      simp

/-- Witness for C7: concrete run of the duplicate-merge scenario from the
empty orders map. -/
theorem claim7_witness :
    (((addItem (addItem [] "57300"
          ⟨{ descripcion := "ARROZ DIANA 500G", ventas := 3500 }, 2⟩).2 "57300"
          ⟨{ descripcion := "ARROZ DIANA 500G", ventas := 3500 }, 3⟩).1).items =
        [⟨{ descripcion := "ARROZ DIANA 500G", ventas := 3500 }, 5⟩] ∧
      ((addItem (addItem [] "57300"
          ⟨{ descripcion := "ARROZ DIANA 500G", ventas := 3500 }, 2⟩).2 "57300"
          ⟨{ descripcion := "ARROZ DIANA 500G", ventas := 3500 }, 3⟩).1).total = 3500 * 5) :=
  claim7_cart_totals.2.2.2 [] "57300"
    { descripcion := "ARROZ DIANA 500G", ventas := 3500 }
    { descripcion := "ARROZ DIANA 500G", ventas := 3500 }
    (by decide) rfl

/-! ## C8: LLM re-ranking adapter error handling -/

/-- C8: every failure mode of the external LLM call — abort/timeout,
non-2xx response, unparseable response body, a reply whose text contains
no JSON object, a reply `JSON.parse` rejects, a parsed reply whose
`selectedId` access throws, is not a number, or is a number outside
`[0, candidates.length)` — makes `getAIRecommendation` return `null`
without letting any exception escape (the embedding is a total function:
every modelled throw is caught by the surrounding `try/catch`). -/
theorem claim8_llm_failures :
    (∀ (jparse : String → Except Unit JsonVal) (candidates : List Product),
      getAIRecommendation jparse candidates .aborted = none) ∧
    (∀ (jparse : String → Except Unit JsonVal) (candidates : List Product)
        (body : Except Unit JsonVal),
      getAIRecommendation jparse candidates (.response false body) = none) ∧
    (∀ (jparse : String → Except Unit JsonVal) (candidates : List Product) (ok : Bool),
      getAIRecommendation jparse candidates (.response ok (.error ())) = none) ∧
    (∀ (jparse : String → Except Unit JsonVal) (candidates : List Product) (data : JsonVal),
      extractText data = .error () →
      getAIRecommendation jparse candidates (.response true (.ok data)) = none) ∧
    (∀ (jparse : String → Except Unit JsonVal) (candidates : List Product) (data : JsonVal)
        (text : String),
      extractText data = .ok text →
      extractBraces (trimWs (stripFences text.data)) = none →
      getAIRecommendation jparse candidates (.response true (.ok data)) = none) ∧
    (∀ (jparse : String → Except Unit JsonVal) (candidates : List Product) (data : JsonVal)
        (text : String) (l : List Char),
      extractText data = .ok text →
      extractBraces (trimWs (stripFences text.data)) = some l →
      jparse (String.mk l) = .error () →
      getAIRecommendation jparse candidates (.response true (.ok data)) = none) ∧
    (∀ (jparse : String → Except Unit JsonVal) (candidates : List Product) (data : JsonVal)
        (text : String) (l : List Char) (v : JsonVal),
      extractText data = .ok text →
      extractBraces (trimWs (stripFences text.data)) = some l →
      jparse (String.mk l) = .ok v →
      jsGetField v "selectedId" = .error () →
      getAIRecommendation jparse candidates (.response true (.ok data)) = none) ∧
    (∀ (jparse : String → Except Unit JsonVal) (candidates : List Product) (data : JsonVal)
        (text : String) (l : List Char) (v : JsonVal) (sel : Option JsonVal),
      extractText data = .ok text →
      extractBraces (trimWs (stripFences text.data)) = some l →
      jparse (String.mk l) = .ok v →
      jsGetField v "selectedId" = .ok sel →
      (∀ q : ℚ, sel ≠ some (.jnum q)) →
      getAIRecommendation jparse candidates (.response true (.ok data)) = none) ∧
    (∀ (jparse : String → Except Unit JsonVal) (candidates : List Product) (data : JsonVal)
        (text : String) (l : List Char) (v : JsonVal) (q : ℚ),
      extractText data = .ok text →
      extractBraces (trimWs (stripFences text.data)) = some l →
      jparse (String.mk l) = .ok v →
      jsGetField v "selectedId" = .ok (some (.jnum q)) →
      ¬(0 ≤ q ∧ q < (candidates.length : ℚ)) →
      getAIRecommendation jparse candidates (.response true (.ok data)) = none) := by
  refine ⟨?_, ?_, ?_, ?_, ?_, ?_, ?_, ?_, ?_⟩
  · intro jparse candidates
    rfl
  · intro jparse candidates body
    rfl
  · intro jparse candidates ok
    cases ok <;> rfl
  · intro jparse candidates data h
    simp [getAIRecommendation, getAIRecommendationRun, h, Except.bind]
  · intro jparse candidates data text h1 h2
    simp [getAIRecommendation, getAIRecommendationRun, h1, h2, Except.bind]
  · intro jparse candidates data text l h1 h2 h3
    simp [getAIRecommendation, getAIRecommendationRun, h1, h2, h3, Except.bind]
  · intro jparse candidates data text l v h1 h2 h3 h4
    simp [getAIRecommendation, getAIRecommendationRun, h1, h2, h3, h4, Except.bind]
  · intro jparse candidates data text l v sel h1 h2 h3 h4 hsel
    cases sel with
    | none => simp [getAIRecommendation, getAIRecommendationRun, h1, h2, h3, h4]
    | some w =>
      cases w with
      | jnum q => exact absurd rfl (hsel q)
      | jnull => simp [getAIRecommendation, getAIRecommendationRun, h1, h2, h3, h4]
      | jbool b => simp [getAIRecommendation, getAIRecommendationRun, h1, h2, h3, h4]
      | jstr s => simp [getAIRecommendation, getAIRecommendationRun, h1, h2, h3, h4]
      | jarr xs => simp [getAIRecommendation, getAIRecommendationRun, h1, h2, h3, h4]
      | jobj fs => simp [getAIRecommendation, getAIRecommendationRun, h1, h2, h3, h4]
  · intro jparse candidates data text l v q h1 h2 h3 h4 hq
    simp [getAIRecommendation, getAIRecommendationRun, h1, h2, h3, h4, Except.bind, hq]

/-- Witness for C8 at concrete inputs: an aborted call, a reply whose text
contains no JSON object, and a parsed reply whose `selectedId` (5) is out
of range for the candidate list all yield `null`. -/
theorem claim8_witness :
    getAIRecommendation (fun _ => .error ()) [] .aborted = none ∧
    getAIRecommendation (fun _ => .error ()) []
      (.response true (.ok (JsonVal.jobj [("candidates", .jarr [.jobj [("content",
        .jobj [("parts", .jarr [.jobj [("text", .jstr "no json here")]])])]])]))) = none ∧
    getAIRecommendation (fun _ => .ok (.jobj [("selectedId", .jnum 5)])) []
      (.response true (.ok (JsonVal.jobj [("candidates", .jarr [.jobj [("content",
        .jobj [("parts", .jarr [.jobj [("text",
          .jstr (String.mk [braceOpen, braceClose]))]])])]])]))) = none :=
  ⟨claim8_llm_failures.1 (fun _ => .error ()) [],
   claim8_llm_failures.2.2.2.2.1 (fun _ => .error ()) [] _ "no json here" rfl (by decide),
   claim8_llm_failures.2.2.2.2.2.2.2.2 (fun _ => .ok (.jobj [("selectedId", .jnum 5)])) [] _
     (String.mk [braceOpen, braceClose]) [braceOpen, braceClose]
     (.jobj [("selectedId", .jnum 5)]) 5 rfl (by decide) rfl rfl (by decide)⟩

/-! ## Strategy inversion lemmas -/

theorem exactSearch_mem {query : List Char} {ps : List Product} {r : SearchResult}
    (h : r ∈ exactSearch query ps) :
    r.matchType = .exact ∧ r.score = 1 ∧ r.product ∈ ps := by
  unfold exactSearch at h
  rw [List.mem_filterMap] at h
  obtain ⟨p, hp, he⟩ := h
  split at he
  · obtain rfl := Option.some.inj he
    exact ⟨rfl, rfl, hp⟩
  · exact Option.noConfusion he

theorem partialSearch_mem {query : List Char} {ps : List Product} {r : SearchResult}
    (h : r ∈ partialSearch query ps) :
    r.matchType = .partialWord ∧ r.product ∈ ps ∧
      0 < (partialQueryWords query).length ∧
      (wordMatches (splitWs (normalizeText r.product.descripcion.data))
          (partialQueryWords query)).1 = (partialQueryWords query).length ∧
      r.score = qMin (qAdd (Rat.divInt 85 100)
          (qMul (qDiv (wordMatches (splitWs (normalizeText r.product.descripcion.data))
              (partialQueryWords query)).2 ((partialQueryWords query).length : ℚ))
            (Rat.divInt 15 100)))
        (Rat.divInt 95 100) := by
  unfold partialSearch at h
  dsimp only at h
  split at h
  · simp at h
  · rename_i h0
    rw [List.mem_filterMap] at h
    obtain ⟨p, hp, he⟩ := h
    split at he
    · rename_i hall
      obtain rfl := Option.some.inj he
      exact ⟨rfl, hp, Nat.pos_of_ne_zero h0, hall, rfl⟩
    · exact Option.noConfusion he

theorem keywordSearch_mem {query : List Char} {ps : List Product} {r : SearchResult}
    (h : r ∈ keywordSearch query ps) :
    r.matchType = .keyword ∧ r.product ∈ ps ∧
      ∃ k : ℕ, 0 < k ∧
        r.score = qMin (qAdd (Rat.divInt 7 10) (qMul (k : ℚ) (Rat.divInt 5 100)))
          (Rat.divInt 85 100) := by
  unfold keywordSearch at h
  rw [List.mem_filterMap] at h
  obtain ⟨p, hp, he⟩ := h
  dsimp only at he
  split at he
  · exact Option.noConfusion he
  · split at he
    · rename_i hk
      obtain rfl := Option.some.inj he
      exact ⟨rfl, hp, _, hk, rfl⟩
    · exact Option.noConfusion he

theorem fuzzySearch_mem {query : List Char} {ps : List Product} {r : SearchResult}
    (h : r ∈ fuzzySearch query ps) :
    r.matchType = .fuzzy ∧ r.product ∈ ps ∧
      0 < (fuzzyQueryWords query).length ∧
      r.score = qMul (qDiv (fuzzyAcc (splitWs (normalizeText r.product.descripcion.data))
            (fuzzyQueryWords query)).2 ((fuzzyQueryWords query).length : ℚ))
        (Rat.divInt 7 10) := by
  unfold fuzzySearch at h
  dsimp only at h
  split at h
  · simp at h
  · rename_i h0
    rw [List.mem_filterMap] at h
    obtain ⟨p, hp, he⟩ := h
    split at he
    · obtain rfl := Option.some.inj he
      exact ⟨rfl, hp, Nat.pos_of_ne_zero h0, rfl⟩
    · exact Option.noConfusion he

theorem categorySearch_mem {query : List Char} {ps : List Product} {r : SearchResult}
    (h : r ∈ categorySearch query ps) :
    r.matchType = .category ∧ r.score = Rat.divInt 1 2 ∧ r.product ∈ ps := by
  unfold categorySearch at h
  rw [List.mem_filterMap] at h
  obtain ⟨p, hp, he⟩ := h
  dsimp only at he
  split at he
  · exact Option.noConfusion he
  · split at he
    · exact Option.noConfusion he
    · split at he
      · obtain rfl := Option.some.inj he
        exact ⟨rfl, rfl, hp⟩
      · exact Option.noConfusion he

/-! ## Word-match accumulator lemmas (partial strategy) -/

theorem wordMatches_fst_le (pws : List (List Char)) (qs : List (List Char)) :
    (wordMatches pws qs).1 ≤ qs.length := by
  induction qs with
  | nil => simp [wordMatches]
  | cons q rest ih =>
    simp only [wordMatches, List.length_cons]
    split
    · exact Nat.succ_le_succ ih
    · split
      · exact Nat.succ_le_succ ih
      · exact Nat.le_succ_of_le ih

theorem wordMatches_all {pws qs : List (List Char)}
    (h : (wordMatches pws qs).1 = qs.length) :
    ∀ w ∈ qs,
      pws.any (fun pWord => pWord = w) = true ∨
      pws.any (fun pWord => containsSub pWord w && decide (3 < w.length)) = true := by
  induction qs with
  | nil => simp
  | cons q rest ih =>
    intro w hw
    simp only [wordMatches, List.length_cons] at h
    by_cases h1 : pws.any (fun pWord => pWord = q) = true
    · rw [if_pos h1] at h
      have hr : (wordMatches pws rest).1 = rest.length := Nat.succ_injective h
      rcases List.mem_cons.1 hw with rfl | hw'
      · exact Or.inl h1
      · exact ih hr w hw'
    · rw [if_neg h1] at h
      by_cases h2 : pws.any (fun pWord => containsSub pWord q && decide (3 < q.length)) = true
      · rw [if_pos h2] at h
        have hr : (wordMatches pws rest).1 = rest.length := Nat.succ_injective h
        rcases List.mem_cons.1 hw with rfl | hw'
        · exact Or.inr h2
        · exact ih hr w hw'
      · rw [if_neg h2] at h
        exact absurd h (Nat.ne_of_lt (Nat.lt_succ_of_le (wordMatches_fst_le pws rest)))

theorem wordMatches_snd_nonneg (pws qs : List (List Char)) :
    0 ≤ (wordMatches pws qs).2 := by
  induction qs with
  | nil => simp [wordMatches]
  | cons q rest ih =>
    simp only [wordMatches]
    split
    · dsimp only; rw [qAdd_eq]; linarith
    · split
      · dsimp only; rw [qAdd_eq, Rat.divInt_eq_div]; push_cast; linarith
      · exact ih

theorem wordMatches_snd_le (pws qs : List (List Char)) :
    (wordMatches pws qs).2 ≤ (qs.length : ℚ) := by
  induction qs with
  | nil => simp [wordMatches]
  | cons q rest ih =>
    simp only [wordMatches, List.length_cons]
    push_cast
    split
    · dsimp only; rw [qAdd_eq]; linarith
    · split
      · dsimp only; rw [qAdd_eq, Rat.divInt_eq_div]; push_cast; linarith
      · linarith

/-! ## C3: AND semantics of the partial strategy -/

/-- C3: a product is included by the partial strategy only when every
query word of length greater than 2 is found in the product's normalized
description, as an exact word or (for query words longer than 3
characters) as a substring of a product word; in particular, the query
"leche alpina deslactosada" does not partially match a product whose
description contains only "leche" and "alpina". -/
theorem claim3_partial_and_semantics :
    (∀ (query : List Char) (ps : List Product) (r : SearchResult),
      r ∈ partialSearch query ps →
      ∀ w ∈ partialQueryWords query,
        (splitWs (normalizeText r.product.descripcion.data)).any
            (fun pWord => pWord = w) = true ∨
        (splitWs (normalizeText r.product.descripcion.data)).any
            (fun pWord => containsSub pWord w && decide (3 < w.length)) = true) ∧
    partialSearch "leche alpina deslactosada".data
      [{ descripcion := "LECHE ALPINA 1L", ventas := 4200 }] = [] := by
  constructor
  · intro query ps r h w hw
    obtain ⟨-, -, -, hall, -⟩ := partialSearch_mem h
    exact wordMatches_all hall w hw
  · decide

/-- Witness for C3 at a concrete included product: in the partial match of
"leche alpina" against "LECHE ALPINA 1L", the query word "leche" is found
as an exact product word. -/
theorem claim3_witness :
    (splitWs (normalizeText "LECHE ALPINA 1L".data)).any
        (fun pWord => pWord = "leche".data) = true ∨
    (splitWs (normalizeText "LECHE ALPINA 1L".data)).any
        (fun pWord => containsSub pWord "leche".data &&
          decide (3 < "leche".data.length)) = true :=
  claim3_partial_and_semantics.1 "leche alpina".data
    [{ descripcion := "LECHE ALPINA 1L", ventas := 4200 }]
    { product := { descripcion := "LECHE ALPINA 1L", ventas := 4200 },
      score := Rat.divInt 95 100, matchType := .partialWord }
    (by decide) "leche".data (by decide)

/-! ## C4: partial strategy scoring -/

/-- Counterexample to C4 as stated: for the query "abc" matched exactly
against the product "abc", the relevance ratio is 1 and the pre-cap bonus
`totalRelevance / queryWords.length * 0.15` equals 0.15, which exceeds
0.10; the resulting score is the cap 0.95 (so the uncapped value 1.00 was
cut down by the `Math.min`). -/
theorem claim4_counterexample :
    qMul (qDiv (wordMatches (splitWs (normalizeText "abc".data))
          (partialQueryWords "abc".data)).2 ((partialQueryWords "abc".data).length : ℚ))
        (Rat.divInt 15 100) = Rat.divInt 15 100 ∧
    ¬(Rat.divInt 15 100 ≤ Rat.divInt 10 100) ∧
    partialSearch "abc".data [{ descripcion := "abc", ventas := 1 }] =
      [{ product := { descripcion := "abc", ventas := 1 },
         score := Rat.divInt 95 100, matchType := .partialWord }] := by
  refine ⟨by decide, by decide, by decide⟩

/-- Score facts for the partial strategy: the exact score formula with
relevance bounds, and the resulting interval `[0.85, 0.95]`. -/
theorem partialSearch_score_facts (query : List Char) (ps : List Product) (r : SearchResult)
    (h : r ∈ partialSearch query ps) :
    (∃ rel : ℚ, 0 ≤ rel ∧ rel ≤ ((partialQueryWords query).length : ℚ) ∧
      r.score = qMin (qAdd (Rat.divInt 85 100)
          (qMul (qDiv rel ((partialQueryWords query).length : ℚ)) (Rat.divInt 15 100)))
        (Rat.divInt 95 100) ∧
      qMul (qDiv rel ((partialQueryWords query).length : ℚ)) (Rat.divInt 15 100) ≤
        Rat.divInt 15 100) ∧
    Rat.divInt 85 100 ≤ r.score ∧ r.score ≤ Rat.divInt 95 100 := by
  obtain ⟨-, -, hn, -, hscore⟩ := partialSearch_mem h
  set n := (partialQueryWords query).length with hndef
  set rel := (wordMatches (splitWs (normalizeText r.product.descripcion.data))
    (partialQueryWords query)).2 with hreldef
  have h0 : 0 ≤ rel := wordMatches_snd_nonneg _ _
  have hle : rel ≤ (n : ℚ) := wordMatches_snd_le _ _
  have hnq : (0 : ℚ) < (n : ℚ) := by exact_mod_cast hn
  have hratio0 : 0 ≤ rel / (n : ℚ) := div_nonneg h0 (le_of_lt hnq)
  have hratio1 : rel / (n : ℚ) ≤ 1 := (div_le_one hnq).2 hle
  have hbonus : qMul (qDiv rel (n : ℚ)) (Rat.divInt 15 100) ≤ Rat.divInt 15 100 := by
    rw [qMul_eq, qDiv_eq, Rat.divInt_eq_div]
    push_cast
    nlinarith
  refine ⟨⟨rel, h0, hle, hscore, hbonus⟩, ?_, ?_⟩
  · rw [hscore, qMin_eq, qAdd_eq, qMul_eq, qDiv_eq]
    rw [Rat.divInt_eq_div, Rat.divInt_eq_div, Rat.divInt_eq_div]
    push_cast
    refine le_min (by nlinarith) (by norm_num)
  · rw [hscore, qMin_eq]
    exact min_le_right _ _

/-- C4 amended: every partial-strategy score equals
`min(0.85 + totalRelevance / queryWords.length * 0.15, 0.95)` where the
relevance total lies in `[0, queryWords.length]`; the pre-cap bonus is
therefore at most 0.15 (not 0.10, which the counterexample refutes), and
the returned score always lies in `[0.85, 0.95]`, so the effective bonus
after the cap never exceeds 0.10. -/
theorem claim4_partial_score (query : List Char) (ps : List Product) (r : SearchResult)
    (h : r ∈ partialSearch query ps) :
    (∃ rel : ℚ, 0 ≤ rel ∧ rel ≤ ((partialQueryWords query).length : ℚ) ∧
      r.score = qMin (qAdd (Rat.divInt 85 100)
          (qMul (qDiv rel ((partialQueryWords query).length : ℚ)) (Rat.divInt 15 100)))
        (Rat.divInt 95 100) ∧
      qMul (qDiv rel ((partialQueryWords query).length : ℚ)) (Rat.divInt 15 100) ≤
        Rat.divInt 15 100) ∧
    Rat.divInt 85 100 ≤ r.score ∧ r.score ≤ Rat.divInt 95 100 :=
  partialSearch_score_facts query ps r h

/-- Witness for C4 (amended) at the concrete partial match of "abc"
against the product "abc". -/
theorem claim4_witness :
    (∃ rel : ℚ, 0 ≤ rel ∧ rel ≤ ((partialQueryWords "abc".data).length : ℚ) ∧
      (Rat.divInt 95 100 : ℚ) = qMin (qAdd (Rat.divInt 85 100)
          (qMul (qDiv rel ((partialQueryWords "abc".data).length : ℚ)) (Rat.divInt 15 100)))
        (Rat.divInt 95 100) ∧
      qMul (qDiv rel ((partialQueryWords "abc".data).length : ℚ)) (Rat.divInt 15 100) ≤
        Rat.divInt 15 100) ∧
    Rat.divInt 85 100 ≤ (Rat.divInt 95 100 : ℚ) ∧
      (Rat.divInt 95 100 : ℚ) ≤ Rat.divInt 95 100 :=
  claim4_partial_score "abc".data [{ descripcion := "abc", ventas := 1 }]
    { product := { descripcion := "abc", ventas := 1 },
      score := Rat.divInt 95 100, matchType := .partialWord }
    (by decide)

/-! ## Similarity and score bounds (fuzzy and keyword strategies) -/

theorem levenshteinSimilarity_le_one (a b : List Char) :
    levenshteinSimilarity a b ≤ 1 := by
  unfold levenshteinSimilarity
  rw [qSub_eq, qDiv_eq]
  have h : (0 : ℚ) ≤ (levenshteinDistance a b : ℚ) / (Nat.max a.length b.length : ℚ) :=
    div_nonneg (by positivity) (by positivity)
  linarith

theorem bestSimilarity_le_one (w : List Char) (pws : List (List Char)) :
    bestSimilarity w pws ≤ 1 := by
  unfold bestSimilarity
  have haux : ∀ (l : List (List Char)) (init : ℚ), init ≤ 1 →
      l.foldl (fun best pWord =>
        if pWord.length < 3 then best
        else
          let similarity := levenshteinSimilarity w pWord
          if best < similarity then similarity else best) init ≤ 1 := by
    intro l
    induction l with
    | nil => intro init h; exact h
    | cons p rest ih =>
      intro init h
      simp only [List.foldl_cons]
      split
      · exact ih init h
      · split
        · exact ih _ (levenshteinSimilarity_le_one w p)
        · exact ih init h
  exact haux pws 0 (by norm_num)

theorem fuzzyAcc_bounds (pws qs : List (List Char)) :
    0 ≤ (fuzzyAcc pws qs).2 ∧ (fuzzyAcc pws qs).2 ≤ ((fuzzyAcc pws qs).1 : ℚ) ∧
      (fuzzyAcc pws qs).1 ≤ qs.length := by
  induction qs with
  | nil => simp [fuzzyAcc]
  | cons q rest ih =>
    obtain ⟨ih0, ih1, ih2⟩ := ih
    simp only [fuzzyAcc, List.length_cons]
    split
    · rename_i hbest
      rw [Rat.divInt_eq_div] at hbest
      have hb1 : bestSimilarity q pws ≤ 1 := bestSimilarity_le_one q pws
      dsimp only
      rw [qAdd_eq]
      refine ⟨by linarith, ?_, by omega⟩
      push_cast
      linarith
    · exact ⟨ih0, ih1, Nat.le_succ_of_le ih2⟩

theorem fuzzySearch_score_le {query : List Char} {ps : List Product} {r : SearchResult}
    (h : r ∈ fuzzySearch query ps) : r.score ≤ Rat.divInt 7 10 := by
  obtain ⟨-, -, hn, hscore⟩ := fuzzySearch_mem h
  obtain ⟨h0, h1, h2⟩ := fuzzyAcc_bounds (splitWs (normalizeText r.product.descripcion.data))
    (fuzzyQueryWords query)
  set acc := fuzzyAcc (splitWs (normalizeText r.product.descripcion.data))
    (fuzzyQueryWords query)
  set n := (fuzzyQueryWords query).length
  have hnq : (0 : ℚ) < (n : ℚ) := by exact_mod_cast hn
  have hacc_le : acc.2 ≤ (n : ℚ) := by
    calc acc.2 ≤ (acc.1 : ℚ) := h1
    _ ≤ (n : ℚ) := by exact_mod_cast h2
  have hratio : acc.2 / (n : ℚ) ≤ 1 := (div_le_one hnq).2 hacc_le
  have hratio0 : 0 ≤ acc.2 / (n : ℚ) := div_nonneg h0 (le_of_lt hnq)
  rw [hscore, qMul_eq, qDiv_eq, Rat.divInt_eq_div]
  push_cast
  nlinarith

theorem keywordSearch_score_ge {query : List Char} {ps : List Product} {r : SearchResult}
    (h : r ∈ keywordSearch query ps) : Rat.divInt 75 100 ≤ r.score := by
  obtain ⟨-, -, k, hk, hscore⟩ := keywordSearch_mem h
  have hk1 : (1 : ℚ) ≤ (k : ℚ) := by exact_mod_cast hk
  rw [hscore, qMin_eq, qAdd_eq, qMul_eq]
  simp only [Rat.divInt_eq_div]
  push_cast
  refine le_min (by nlinarith) (by norm_num)

theorem partialSearch_score_ge {query : List Char} {ps : List Product} {r : SearchResult}
    (h : r ∈ partialSearch query ps) : Rat.divInt 85 100 ≤ r.score :=
  (partialSearch_score_facts _ _ _ h).2.1

/-! ## Deduplication invariants -/

/-- Description key used by the deduplication map. -/
def resKey (r : SearchResult) : String := r.product.descripcion

theorem mem_setResult {acc : List SearchResult} {r x : SearchResult}
    (h : x ∈ setResult acc r) : x ∈ acc ∨ x = r := by
  induction acc with
  | nil =>
    simp only [setResult, List.mem_singleton] at h
    exact Or.inr h
  | cons e rest ih =>
    simp only [setResult] at h
    split at h
    · rcases List.mem_cons.1 h with rfl | hx
      · exact Or.inr rfl
      · exact Or.inl (List.mem_cons_of_mem _ hx)
    · rcases List.mem_cons.1 h with rfl | hx
      · exact Or.inl (List.mem_cons_self _ _)
      · rcases ih hx with h' | h'
        · exact Or.inl (List.mem_cons_of_mem _ h')
        · exact Or.inr h'

theorem setResult_mem_self (acc : List SearchResult) (r : SearchResult) :
    r ∈ setResult acc r := by
  induction acc with
  | nil => simp [setResult]
  | cons e rest ih =>
    simp only [setResult]
    split
    · exact List.mem_cons_self _ _
    · exact List.mem_cons_of_mem _ ih

theorem mem_setResult_of_mem {acc : List SearchResult} {r x : SearchResult}
    (hx : x ∈ acc) (hne : resKey x ≠ resKey r) : x ∈ setResult acc r := by
  induction acc with
  | nil => simp at hx
  | cons e rest ih =>
    simp only [setResult]
    rcases List.mem_cons.1 hx with rfl | hx'
    · split
      · rename_i hk
        exact absurd hk hne
      · exact List.mem_cons_self _ _
    · split
      · exact List.mem_cons_of_mem _ hx'
      · exact List.mem_cons_of_mem _ (ih hx')

theorem setResult_pairwise {acc : List SearchResult} {r : SearchResult}
    (hpw : List.Pairwise (fun a b => resKey a ≠ resKey b) acc) :
    List.Pairwise (fun a b => resKey a ≠ resKey b) (setResult acc r) := by
  induction acc with
  | nil => simp [setResult]
  | cons e rest ih =>
    obtain ⟨he, hrest⟩ := List.pairwise_cons.1 hpw
    simp only [setResult]
    split
    · rename_i hk
      refine List.pairwise_cons.2 ⟨?_, hrest⟩
      intro x hx
      have := he x hx
      simpa [resKey, ← hk] using this
    · refine List.pairwise_cons.2 ⟨?_, ih hrest⟩
      intro x hx
      rcases mem_setResult hx with hx' | rfl
      · exact he x hx'
      · rename_i hk
        exact fun hc => hk hc

theorem mem_setResult_key {acc : List SearchResult} {r x : SearchResult}
    (hpw : List.Pairwise (fun a b => resKey a ≠ resKey b) acc)
    (hx : x ∈ setResult acc r) (hk : resKey x = resKey r) : x = r := by
  induction acc with
  | nil =>
    simpa [setResult] using hx
  | cons e rest ih =>
    obtain ⟨he, hrest⟩ := List.pairwise_cons.1 hpw
    simp only [setResult] at hx
    split at hx
    · rename_i hek
      rcases List.mem_cons.1 hx with rfl | hx'
      · rfl
      · exact absurd ((show resKey e = resKey r from hek).trans hk.symm) (he x hx')
    · rename_i hek
      rcases List.mem_cons.1 hx with rfl | hx'
      · exact absurd hk hek
      · exact ih hrest hx'

theorem pairwise_key_unique {acc : List SearchResult}
    (hpw : List.Pairwise (fun a b => resKey a ≠ resKey b) acc) {x y : SearchResult}
    (hx : x ∈ acc) (hy : y ∈ acc) (h : resKey x = resKey y) : x = y := by
  induction acc with
  | nil => simp at hx
  | cons e rest ih =>
    obtain ⟨he, hrest⟩ := List.pairwise_cons.1 hpw
    rcases List.mem_cons.1 hx with rfl | hx' <;> rcases List.mem_cons.1 hy with rfl | hy'
    · rfl
    · exact absurd h (he y hy')
    · exact absurd h.symm (he x hx')
    · exact ih hrest hx' hy'

/-- Invariant of the deduplication fold: the accumulator has pairwise
distinct description keys, contains only processed results, holds for
each of its entries the maximum processed score of its key, and covers
every processed key. -/
def DedupInv (processed acc : List SearchResult) : Prop :=
  List.Pairwise (fun a b => resKey a ≠ resKey b) acc ∧
  (∀ r ∈ acc, r ∈ processed) ∧
  (∀ x ∈ acc, ∀ s ∈ processed, resKey s = resKey x → s.score ≤ x.score) ∧
  (∀ s ∈ processed, ∃ t ∈ acc, resKey t = resKey s)

theorem insertResult_eq_none {acc : List SearchResult} {r : SearchResult}
    (hf : acc.find? (fun e => e.product.descripcion = r.product.descripcion) = none) :
    insertResult acc r = setResult acc r := by
  unfold insertResult
  rw [hf]

theorem insertResult_eq_some_lt {acc : List SearchResult} {r e : SearchResult}
    (hf : acc.find? (fun e => e.product.descripcion = r.product.descripcion) = some e)
    (hlt : e.score < r.score) :
    insertResult acc r = setResult acc r := by
  unfold insertResult
  rw [hf]
  dsimp only
  rw [if_pos hlt]

theorem insertResult_eq_some_ge {acc : List SearchResult} {r e : SearchResult}
    (hf : acc.find? (fun e => e.product.descripcion = r.product.descripcion) = some e)
    (hnlt : ¬e.score < r.score) :
    insertResult acc r = acc := by
  unfold insertResult
  rw [hf]
  dsimp only
  rw [if_neg hnlt]

theorem dedupInv_setResult {processed acc : List SearchResult} {r : SearchResult}
    (hpw : List.Pairwise (fun a b => resKey a ≠ resKey b) acc)
    (hmem : ∀ x ∈ acc, x ∈ processed)
    (hmax : ∀ x ∈ acc, ∀ s ∈ processed, resKey s = resKey x → s.score ≤ x.score)
    (hcov : ∀ s ∈ processed, ∃ t ∈ acc, resKey t = resKey s)
    (hkeymax : ∀ s ∈ processed, resKey s = resKey r → s.score ≤ r.score) :
    DedupInv (processed ++ [r]) (setResult acc r) := by
  refine ⟨setResult_pairwise hpw, ?_, ?_, ?_⟩
  · intro x hx
    rcases mem_setResult hx with hx' | hxeq
    · exact List.mem_append_left _ (hmem x hx')
    · rw [hxeq]
      exact List.mem_append_right _ (List.mem_singleton_self r)
  · intro x hx s hs hks
    by_cases hxr : resKey x = resKey r
    · have hxeq : x = r := mem_setResult_key hpw hx hxr
      rw [hxeq]
      rcases List.mem_append.1 hs with hs' | hs'
      · exact hkeymax s hs' (hks.trans (hxeq ▸ hxr))
      · have hseq := List.mem_singleton.1 hs'
        rw [hseq]
    · rcases mem_setResult hx with hx' | hxeq
      · rcases List.mem_append.1 hs with hs' | hs'
        · exact hmax x hx' s hs' hks
        · have hseq := List.mem_singleton.1 hs'
          rw [hseq] at hks
          exact absurd hks.symm hxr
      · exact absurd (congrArg resKey hxeq) hxr
  · intro s hs
    rcases List.mem_append.1 hs with hs' | hs'
    · obtain ⟨t, ht, hkt⟩ := hcov s hs'
      by_cases hkr : resKey t = resKey r
      · exact ⟨r, setResult_mem_self _ _, hkr.symm.trans hkt⟩
      · exact ⟨t, mem_setResult_of_mem ht hkr, hkt⟩
    · have hseq := List.mem_singleton.1 hs'
      rw [hseq]
      exact ⟨r, setResult_mem_self _ _, rfl⟩

theorem insertResult_inv {processed acc : List SearchResult} {r : SearchResult}
    (h : DedupInv processed acc) : DedupInv (processed ++ [r]) (insertResult acc r) := by
  obtain ⟨hpw, hmem, hmax, hcov⟩ := h
  cases hf : acc.find? (fun e => e.product.descripcion = r.product.descripcion) with
  | none =>
    have hnone : ∀ e ∈ acc, resKey e ≠ resKey r := by
      intro e he hke
      have := List.find?_eq_none.1 hf e he
      simp only [decide_eq_true_eq] at this
      exact this hke
    rw [insertResult_eq_none hf]
    refine dedupInv_setResult hpw hmem hmax hcov ?_
    intro s hs hks
    obtain ⟨t, ht, hkt⟩ := hcov s hs
    exact absurd (hkt.trans hks) (hnone t ht)
  | some e =>
    have he_mem : e ∈ acc := List.mem_of_find?_eq_some hf
    have he_key : resKey e = resKey r := by
      have := List.find?_some hf
      simpa [decide_eq_true_eq] using this
    by_cases hlt : e.score < r.score
    · rw [insertResult_eq_some_lt hf hlt]
      refine dedupInv_setResult hpw hmem hmax hcov ?_
      intro s hs hks
      have hse : s.score ≤ e.score := hmax e he_mem s hs (hks.trans he_key.symm)
      exact le_of_lt (lt_of_le_of_lt hse hlt)
    · rw [insertResult_eq_some_ge hf hlt]
      refine ⟨hpw, ?_, ?_, ?_⟩
      · intro x hx
        exact List.mem_append_left _ (hmem x hx)
      · intro x hx s hs hks
        rcases List.mem_append.1 hs with hs' | hs'
        · exact hmax x hx s hs' hks
        · have hseq := List.mem_singleton.1 hs'
          rw [hseq] at hks ⊢
          have hx_e : x = e := pairwise_key_unique hpw hx he_mem (hks.symm.trans he_key.symm)
          rw [hx_e]
          exact le_of_not_lt hlt
      · intro s hs
        rcases List.mem_append.1 hs with hs' | hs'
        · exact hcov s hs'
        · have hseq := List.mem_singleton.1 hs'
          rw [hseq]
          exact ⟨e, he_mem, he_key⟩

theorem foldl_insertResult_inv (rs : List SearchResult) :
    ∀ (processed acc : List SearchResult), DedupInv processed acc →
      DedupInv (processed ++ rs) (rs.foldl insertResult acc) := by
  induction rs with
  | nil =>
    intro processed acc h
    simpa using h
  | cons r rest ih =>
    intro processed acc h
    have step := ih (processed ++ [r]) (insertResult acc r) (insertResult_inv h)
    rw [List.append_assoc] at step
    simpa using step

theorem removeDuplicates_inv (rs : List SearchResult) :
    DedupInv rs (removeDuplicates rs) := by
  have h0 : DedupInv [] [] := ⟨by simp, by simp, by simp, by simp⟩
  have := foldl_insertResult_inv rs [] [] h0
  simpa [removeDuplicates] using this

theorem removeDuplicates_pairwise (rs : List SearchResult) :
    List.Pairwise (fun a b => resKey a ≠ resKey b) (removeDuplicates rs) :=
  (removeDuplicates_inv rs).1

theorem removeDuplicates_subset {rs : List SearchResult} {r : SearchResult}
    (h : r ∈ removeDuplicates rs) : r ∈ rs :=
  (removeDuplicates_inv rs).2.1 r h

theorem removeDuplicates_max {rs : List SearchResult} {r : SearchResult}
    (h : r ∈ removeDuplicates rs) :
    ∀ s ∈ rs, resKey s = resKey r → s.score ≤ r.score :=
  (removeDuplicates_inv rs).2.2.1 r h

/-! ## Search-level membership lemmas -/

theorem search_subset_dedup {query : String} {ps : List Product} {opts : SearchOptions}
    {r : SearchResult} (h : r ∈ search query ps opts) :
    r ∈ removeDuplicates
      (combinedResults (normalizeText query.data) ps opts.includeCategories) := by
  unfold search at h
  dsimp only at h
  have h1 : r ∈ List.insertionSort scoreDesc
      ((removeDuplicates (combinedResults (normalizeText query.data) ps
        opts.includeCategories)).filter (fun r => effMinScore opts ≤ r.score)) :=
    List.Sublist.mem h (List.take_sublist _ _)
  have h2 : r ∈ (removeDuplicates (combinedResults (normalizeText query.data) ps
      opts.includeCategories)).filter (fun r => effMinScore opts ≤ r.score) :=
    (List.perm_insertionSort scoreDesc _).mem_iff.1 h1
  exact List.Sublist.mem h2 (List.filter_sublist _)

theorem search_mem_combined {query : String} {ps : List Product} {opts : SearchOptions}
    {r : SearchResult} (h : r ∈ search query ps opts) :
    r ∈ combinedResults (normalizeText query.data) ps opts.includeCategories :=
  removeDuplicates_subset (search_subset_dedup h)

theorem combined_cases {st : List Char} {ps : List Product} {inc : Bool} {r : SearchResult}
    (h : r ∈ combinedResults st ps inc) :
    r ∈ exactSearch st ps ∨ r ∈ partialSearch st ps ∨ r ∈ keywordSearch st ps ∨
      r ∈ fuzzySearch st ps ∨ r ∈ categorySearch st ps := by
  unfold combinedResults at h
  simp only [List.mem_append] at h
  rcases h with ((((h | h) | h) | h) | h)
  · exact Or.inl h
  · exact Or.inr (Or.inl h)
  · exact Or.inr (Or.inr (Or.inl h))
  · exact Or.inr (Or.inr (Or.inr (Or.inl h)))
  · by_cases hinc : inc = true
    · rw [if_pos hinc] at h
      exact Or.inr (Or.inr (Or.inr (Or.inr h)))
    · rw [if_neg hinc] at h
      simp at h

/-! ## C2: deduplication in the search output -/

/-- C2: no two results of one `search` call share a product description,
and every returned result is one of the results the strategies produced
for that call, carrying the maximum score any strategy assigned to its
description. -/
theorem claim2_dedup (query : String) (ps : List Product) (opts : SearchOptions) :
    List.Pairwise (fun a b => a.product.descripcion ≠ b.product.descripcion)
      (search query ps opts) ∧
    ∀ r ∈ search query ps opts,
      r ∈ combinedResults (normalizeText query.data) ps opts.includeCategories ∧
      ∀ s ∈ combinedResults (normalizeText query.data) ps opts.includeCategories,
        s.product.descripcion = r.product.descripcion → s.score ≤ r.score := by
  constructor
  · have hpw := removeDuplicates_pairwise
      (combinedResults (normalizeText query.data) ps opts.includeCategories)
    have h1 := List.Pairwise.sublist (List.filter_sublist
      (p := fun r => decide (effMinScore opts ≤ r.score)) _) hpw
    have h2 := h1.perm (List.perm_insertionSort scoreDesc _).symm
      (fun hab => fun hc => hab hc.symm)
    exact List.Pairwise.sublist (List.take_sublist _ _) h2
  · intro r hr
    have hd := search_subset_dedup hr
    exact ⟨removeDuplicates_subset hd, fun s hs hks => removeDuplicates_max hd s hs hks⟩

/-- Witness for C2: in the search for "arroz" over the one-product catalog
["arroz"], the returned exact result is one of the combined strategy
results, and the partial-strategy result for the same description scores
no higher than it. -/
theorem claim2_witness :
    ({ product := { descripcion := "arroz", ventas := 1000 }, score := 1,
       matchType := .exact } : SearchResult) ∈
      combinedResults (normalizeText "arroz".data)
        [{ descripcion := "arroz", ventas := 1000 }] false ∧
    ({ product := { descripcion := "arroz", ventas := 1000 },
       score := Rat.divInt 95 100, matchType := .partialWord } : SearchResult).score ≤
      ({ product := { descripcion := "arroz", ventas := 1000 }, score := 1,
         matchType := .exact } : SearchResult).score :=
  ⟨((claim2_dedup "arroz" [{ descripcion := "arroz", ventas := 1000 }] {}).2
      { product := { descripcion := "arroz", ventas := 1000 }, score := 1,
        matchType := .exact } (by decide)).1,
   ((claim2_dedup "arroz" [{ descripcion := "arroz", ventas := 1000 }] {}).2
      { product := { descripcion := "arroz", ventas := 1000 }, score := 1,
        matchType := .exact } (by decide)).2
      { product := { descripcion := "arroz", ventas := 1000 },
        score := Rat.divInt 95 100, matchType := .partialWord } (by decide) rfl⟩

/-! ## C1: search output bounds and ordering -/

/-- Counterexample to C1 as stated: with the option `maxResults = 0` the
JavaScript default `options?.maxResults || 15` ignores the option (0 is
falsy), so the search for "arroz" over a one-product catalog returns one
result although the claim, read literally over every options value,
demands at most 0. -/
theorem claim1_counterexample :
    (search "arroz" [{ descripcion := "arroz", ventas := 1000 }]
        { maxResults := some 0, minScore := none, includeCategories := false }).length = 1 ∧
    ¬((1 : ℕ) ≤ 0) := ⟨by decide, by decide⟩

theorem effMinScore_ge_getD (opts : SearchOptions) :
    opts.minScore.getD (Rat.divInt 3 10) ≤ effMinScore opts := by
  unfold effMinScore
  cases opts.minScore with
  | none => simp
  | some q =>
    simp only [Option.getD_some]
    split
    · rename_i hq
      rw [hq, Rat.divInt_eq_div]
      norm_num
    · exact le_refl q

/-- C1 amended: every result of `search` scores at least the requested
`minScore` (0.3 when the option is absent); the scores are in
non-increasing order; and the output length is bounded by `maxResults`
when that option is present and nonzero, and by 15 when it is absent or
zero (the source applies the JavaScript `||` default, under which a zero
`maxResults` falls back to 15 — the literal at-most-`maxResults` reading
fails only in that zero case, per the counterexample). -/
theorem claim1_search_bounds (query : String) (ps : List Product) (opts : SearchOptions) :
    (∀ r ∈ search query ps opts, opts.minScore.getD (Rat.divInt 3 10) ≤ r.score) ∧
    (search query ps opts).length ≤ effMaxResults opts ∧
    List.Sorted (fun a b => b.score ≤ a.score) (search query ps opts) := by
  refine ⟨?_, ?_, ?_⟩
  · intro r hr
    unfold search at hr
    dsimp only at hr
    have h1 : r ∈ List.insertionSort scoreDesc
        ((removeDuplicates (combinedResults (normalizeText query.data) ps
          opts.includeCategories)).filter (fun r => effMinScore opts ≤ r.score)) :=
      List.Sublist.mem hr (List.take_sublist _ _)
    have h2 := (List.perm_insertionSort scoreDesc _).mem_iff.1 h1
    have h3 := List.of_mem_filter h2
    simp only [decide_eq_true_eq] at h3
    exact le_trans (effMinScore_ge_getD opts) h3
  · exact List.length_take_le _ _
  · have hs := List.sorted_insertionSort scoreDesc
      ((removeDuplicates (combinedResults (normalizeText query.data) ps
        opts.includeCategories)).filter (fun r => effMinScore opts ≤ r.score))
    exact List.Pairwise.sublist (List.take_sublist _ _) hs

/-- Witness for C1 (amended): the exact result of searching "arroz" in
the catalog ["arroz"] with default options scores at least the default
minimum 0.3. -/
theorem claim1_witness :
    ({ maxResults := none, minScore := none,
        includeCategories := false } : SearchOptions).minScore.getD (Rat.divInt 3 10) ≤
      ({ product := { descripcion := "arroz", ventas := 1000 }, score := 1,
         matchType := .exact } : SearchResult).score :=
  (claim1_search_bounds "arroz" [{ descripcion := "arroz", ventas := 1000 }]
      { maxResults := none, minScore := none, includeCategories := false }).1
    { product := { descripcion := "arroz", ventas := 1000 }, score := 1,
      matchType := .exact } (by decide)

/-! ## C5: the documented fuzzy example -/

/-- C5: searching "arros diana" in the one-product catalog
["ARROZ DIANA 500G"] with default options returns exactly one result,
with match type fuzzy and score 0.63 > 0 (the Levenshtein similarities of
"arros"/"arroz" and "diana"/"diana" are 0.8 and 1, so the score is
`(0.8 + 1) / 2 * 0.7`). -/
theorem claim5_fuzzy_example :
    search "arros diana" [{ descripcion := "ARROZ DIANA 500G", ventas := 3500 }] {} =
      [{ product := { descripcion := "ARROZ DIANA 500G", ventas := 3500 },
         score := Rat.divInt 63 100, matchType := .fuzzy }] ∧
    (0 : ℚ) < Rat.divInt 63 100 := by
  refine ⟨by decide, by decide⟩

/-! ## C9: fuzzy results rank strictly below exact, partial, keyword -/

/-- C9: per-word Levenshtein similarity never exceeds 1, so a fuzzy score
(mean matched similarity times 0.7) is at most 0.7; keyword results score
at least 0.75, partial results at least 0.85, and exact results exactly 1;
hence in any one search output a fuzzy result scores strictly below every
exact, partial, or keyword result (and, the output being sorted by
descending score, is ranked strictly below it). -/
theorem claim9_fuzzy_below :
    (∀ a b : List Char, levenshteinSimilarity a b ≤ 1) ∧
    (∀ (query : List Char) (ps : List Product) (r : SearchResult),
      r ∈ fuzzySearch query ps → r.score ≤ Rat.divInt 7 10) ∧
    (∀ (query : List Char) (ps : List Product) (r : SearchResult),
      r ∈ keywordSearch query ps → Rat.divInt 75 100 ≤ r.score) ∧
    (∀ (query : List Char) (ps : List Product) (r : SearchResult),
      r ∈ partialSearch query ps → Rat.divInt 85 100 ≤ r.score) ∧
    (∀ (query : List Char) (ps : List Product) (r : SearchResult),
      r ∈ exactSearch query ps → r.score = 1) ∧
    (∀ (query : String) (ps : List Product) (opts : SearchOptions) (r1 r2 : SearchResult),
      r1 ∈ search query ps opts → r2 ∈ search query ps opts →
      r1.matchType = .fuzzy →
      (r2.matchType = .exact ∨ r2.matchType = .partialWord ∨ r2.matchType = .keyword) →
      r1.score < r2.score) := by
  refine ⟨levenshteinSimilarity_le_one, fun _ _ _ h => fuzzySearch_score_le h,
    fun _ _ _ h => keywordSearch_score_ge h, fun _ _ _ h => partialSearch_score_ge h,
    fun _ _ _ h => (exactSearch_mem h).2.1, ?_⟩
  intro query ps opts r1 r2 h1 h2 ht1 ht2
  have hfuzzy : r1.score ≤ Rat.divInt 7 10 := by
    rcases combined_cases (search_mem_combined h1) with h | h | h | h | h
    · obtain ⟨hmt, -, -⟩ := exactSearch_mem h
      rw [ht1] at hmt; exact absurd hmt (by simp)
    · obtain ⟨hmt, -⟩ := partialSearch_mem h
      rw [ht1] at hmt; exact absurd hmt (by simp)
    · obtain ⟨hmt, -⟩ := keywordSearch_mem h
      rw [ht1] at hmt; exact absurd hmt (by simp)
    · exact fuzzySearch_score_le h
    · obtain ⟨hmt, -, -⟩ := categorySearch_mem h
      rw [ht1] at hmt; exact absurd hmt (by simp)
  have hother : Rat.divInt 75 100 ≤ r2.score := by
    rcases combined_cases (search_mem_combined h2) with h | h | h | h | h
    · obtain ⟨-, hs, -⟩ := exactSearch_mem h
      rw [hs, Rat.divInt_eq_div]; norm_num
    · refine le_trans ?_ (partialSearch_score_ge h)
      rw [Rat.divInt_eq_div, Rat.divInt_eq_div]; norm_num
    · exact keywordSearch_score_ge h
    · obtain ⟨hmt, -⟩ := fuzzySearch_mem h
      rcases ht2 with ht | ht | ht <;> (rw [ht] at hmt; exact absurd hmt (by simp))
    · obtain ⟨hmt, -, -⟩ := categorySearch_mem h
      rcases ht2 with ht | ht | ht <;> (rw [ht] at hmt; exact absurd hmt (by simp))
  have hmid : Rat.divInt 7 10 < Rat.divInt 75 100 := by
    rw [Rat.divInt_eq_div, Rat.divInt_eq_div]; norm_num
  exact lt_of_le_of_lt hfuzzy (lt_of_lt_of_le hmid hother)

/-- Witness for C9: searching "arroz" in the catalog ["arroz", "arros"]
returns the exact match for "arroz" and a fuzzy match for "arros"
(similarity 0.8, score 0.56), and the fuzzy result scores strictly below
the exact one. -/
theorem claim9_witness :
    ({ product := { descripcion := "arros", ventas := 1200 },
       score := Rat.divInt 14 25, matchType := .fuzzy } : SearchResult).score <
      ({ product := { descripcion := "arroz", ventas := 1000 }, score := 1,
         matchType := .exact } : SearchResult).score :=
  claim9_fuzzy_below.2.2.2.2.2 "arroz"
    [{ descripcion := "arroz", ventas := 1000 }, { descripcion := "arros", ventas := 1200 }]
    {}
    { product := { descripcion := "arros", ventas := 1200 },
      score := Rat.divInt 14 25, matchType := .fuzzy }
    { product := { descripcion := "arroz", ventas := 1000 }, score := 1,
      matchType := .exact }
    (by decide) (by decide) rfl (Or.inl rfl)
